import Mathlib

/-!
Verification of the LUT construction and pixel pipeline of apply_lut.py.

The embedding models the numeric core of the program over ℚ (exact
rational arithmetic standing in for Python floats; every computation
appearing in the verified claims is exact in both):

- load_lut: CSV sample pairs → 256-entry integer lookup table, via
  output clamping, stable sort by input, and piecewise-linear
  interpolation with endpoint clamping (lines 38-79 of apply_lut.py).
- the negative-table derivation lut = [255 - v for v in lut] (line 196).
- scale_to_full_range: full-range normalization of a greyscale pixel
  buffer (lines 92-105); min/max of an empty buffer has no value, which
  models the ValueError raised by Python's min([]) / max([]).
- pyRound models Python's built-in round (round half to even.)
-/

set_option maxRecDepth 10000

set_option allowUnsafeReducibility true in
attribute [semireducible] Rat.add Rat.sub Rat.mul Rat.div Rat.inv

/-- Model of Python's built-in round: nearest integer, ties to even.
Uses Rat.floor (computable) rather than the FloorRing instance. -/
def pyRound (q : ℚ) : ℤ :=
  if q - Rat.floor q < 1/2 then Rat.floor q
  else if q - Rat.floor q > 1/2 then Rat.floor q + 1
  else if Rat.floor q % 2 = 0 then Rat.floor q else Rat.floor q + 1

/-- Clamp a value to the interval [0, 255]; models max(0.0, min(255.0, x)). -/
def clamp255 (q : ℚ) : ℚ := max 0 (min 255 q)

/-- Parse-time clamping of a sample pair: the output (idea) component is
clamped to [0, 255], the input (scan) component is left unchanged
(apply_lut.py lines 45-46). -/
def clampOut (p : ℚ × ℚ) : ℚ × ℚ := (p.1, clamp255 p.2)

/-- Model of pairs.sort(key=lambda p: p[0]): a stable sort by the input
component. Python's list.sort is stable; List.mergeSort is the stable
sort with the same observable behaviour. -/
def sortPairs (l : List (ℚ × ℚ)) : List (ℚ × ℚ) :=
  l.mergeSort (fun a b => a.1 ≤ b.1)

/-- Model of the scan over consecutive sorted sample pairs
(apply_lut.py lines 66-76): pick the first consecutive pair (a, b) with
b.input ≥ i; a zero-width pair yields a.output, otherwise linear
interpolation; if no pair matches (the for-else), yield dflt (= o_last). -/
def scanPairs (i dflt : ℚ) : List (ℚ × ℚ) → ℚ
  | [] => dflt
  | [_] => dflt
  | a :: b :: rest =>
    if b.1 ≥ i then
      if b.1 = a.1 then a.2
      else a.2 + (b.2 - a.2) * (i - a.1) / (b.1 - a.1)
    else scanPairs i dflt (b :: rest)

/-- Interpolated output for query i over the sorted sample pairs
(apply_lut.py lines 58-76): endpoint cases i ≤ s_min and i ≥ s_max first,
then the single-sample case, then the scan over consecutive pairs. -/
def outVal (pairs : List (ℚ × ℚ)) (i : ℚ) : ℚ :=
  if i ≤ (pairs.headD (0, 0)).1 then (pairs.headD (0, 0)).2
  else if i ≥ (pairs.getLastD (0, 0)).1 then (pairs.getLastD (0, 0)).2
  else if pairs.length = 1 then (pairs.headD (0, 0)).2
  else scanPairs i (pairs.getLastD (0, 0)).2 pairs

/-- Pre-rounding table value at index i: interpolated output clamped to
[0, 255] (apply_lut.py line 77). -/
def lutPre (pairs : List (ℚ × ℚ)) (i : ℕ) : ℚ := clamp255 (outVal pairs (i : ℚ))

/-- Final integer table entry at index i (apply_lut.py line 78). -/
def lutEntry (pairs : List (ℚ × ℚ)) (i : ℕ) : ℤ := pyRound (lutPre pairs i)

/-- The 256-entry table built from the sorted, clamped sample pairs. -/
def buildTable (pairs : List (ℚ × ℚ)) : List ℤ :=
  (List.range 256).map (lutEntry pairs)

/-- Model of load_lut after CSV parsing: rows are the parsed
(scan, idea) pairs in file order; outputs are clamped, an empty sample
set is an error (none), otherwise the pairs are sorted by input and the
256-entry table is built. -/
def load_lut (rows : List (ℚ × ℚ)) : Option (List ℤ) :=
  if (rows.map clampOut).isEmpty then none
  else some (buildTable (sortPairs (rows.map clampOut)))

/-- Model of the negative-table derivation lut = [255 - v for v in lut]
(apply_lut.py line 196). -/
def invert_lut (lut : List ℤ) : List ℤ := lut.map (fun v => 255 - v)

/-- Pre-rounding scaled pixel value: (p - min) * (255 / (max - min))
(apply_lut.py lines 101-102). -/
def scalePre (mn mx p : ℤ) : ℚ := ((p : ℚ) - (mn : ℚ)) * (255 / ((mx : ℚ) - (mn : ℚ)))

/-- Model of scale_to_full_range on the flattened pixel buffer
(apply_lut.py lines 92-105). Python's min()/max() raise ValueError on an
empty sequence, modelled by none; a constant buffer maps to all zeros;
otherwise each pixel is scaled to the full range and rounded. -/
def scale_to_full_range (pixels : List ℤ) : Option (List ℤ) :=
  match pixels.min?, pixels.max? with
  | some mn, some mx =>
    if mx = mn then some (List.replicate pixels.length 0)
    else some (pixels.map (fun p => pyRound (scalePre mn mx p)))
  | _, _ => none

theorem ratFloor_eq_floor (q : ℚ) : (Rat.floor q : ℤ) = ⌊q⌋ :=
  (Rat.floor_def' q).trans Rat.floor_def.symm

theorem pyRound_def (q : ℚ) :
    pyRound q =
      if q - ⌊q⌋ < 1/2 then ⌊q⌋
      else if q - ⌊q⌋ > 1/2 then ⌊q⌋ + 1
      else if ⌊q⌋ % 2 = 0 then ⌊q⌋ else ⌊q⌋ + 1 := by
  unfold pyRound
  rw [ratFloor_eq_floor]

theorem floor_le_pyRound (q : ℚ) : ⌊q⌋ ≤ pyRound q := by
  rw [pyRound_def]
  split_ifs <;> omega

theorem pyRound_le_ceil (q : ℚ) : pyRound q ≤ ⌈q⌉ := by
  rw [pyRound_def]
  have h1 : ⌊q⌋ ≤ ⌈q⌉ := Int.floor_le_ceil q
  split_ifs with hlt hgt hev
  · exact h1
  · have h3 : (⌊q⌋ : ℚ) < q := by linarith
    have h4 : ⌊q⌋ < ⌈q⌉ := Int.lt_ceil.mpr h3
    omega
  · exact h1
  · push_neg at hlt
    have h3 : (⌊q⌋ : ℚ) < q := by linarith
    have h4 : ⌊q⌋ < ⌈q⌉ := Int.lt_ceil.mpr h3
    omega

theorem pyRound_intCast (k : ℤ) : pyRound (k : ℚ) = k := by
  rw [pyRound_def, Int.floor_intCast]
  norm_num

theorem pyRound_mono {q r : ℚ} (h : q ≤ r) : pyRound q ≤ pyRound r := by
  have hf : ⌊q⌋ ≤ ⌊r⌋ := Int.floor_le_floor h
  rcases hf.lt_or_eq with hlt | heq
  · calc pyRound q ≤ ⌈q⌉ := pyRound_le_ceil q
      _ ≤ ⌊q⌋ + 1 := Int.ceil_le_floor_add_one q
      _ ≤ ⌊r⌋ := by omega
      _ ≤ pyRound r := floor_le_pyRound r
  · have hqr : q - ⌊q⌋ ≤ r - ⌊r⌋ := by
      rw [← heq]
      linarith
    rw [pyRound_def, pyRound_def, ← heq]
    rw [← heq] at hqr
    split_ifs <;>
      first
        | omega
        | (exfalso; simp only [not_lt, gt_iff_lt] at *; linarith)

theorem pyRound_half (k : ℤ) :
    pyRound ((k : ℚ) + 1/2) = if k % 2 = 0 then k else k + 1 := by
  have hfl : ⌊(k : ℚ) + 1/2⌋ = k := by
    rw [Int.floor_int_add]
    norm_num
  have h2 : ((k : ℚ) + 1/2) - (⌊(k : ℚ) + 1/2⌋ : ℚ) = 1/2 := by
    rw [hfl]; ring
  rw [pyRound_def, h2, hfl]
  norm_num

theorem clamp255_nonneg (q : ℚ) : 0 ≤ clamp255 q := le_max_left 0 _

theorem clamp255_le (q : ℚ) : clamp255 q ≤ 255 :=
  max_le (by norm_num) (min_le_left _ _)

theorem clamp255_mono {q r : ℚ} (h : q ≤ r) : clamp255 q ≤ clamp255 r :=
  max_le_max le_rfl (min_le_min le_rfl h)

theorem clamp255_eq_self {q : ℚ} (h0 : 0 ≤ q) (h255 : q ≤ 255) : clamp255 q = q := by
  unfold clamp255
  rw [min_eq_right h255, max_eq_right h0]

theorem lutEntry_nonneg (pairs : List (ℚ × ℚ)) (i : ℕ) : 0 ≤ lutEntry pairs i := by
  unfold lutEntry lutPre
  calc (0 : ℤ) ≤ ⌊clamp255 (outVal pairs (i : ℚ))⌋ := by
        rw [Int.le_floor]
        exact_mod_cast clamp255_nonneg _
    _ ≤ pyRound (clamp255 (outVal pairs (i : ℚ))) := floor_le_pyRound _

theorem lutEntry_le (pairs : List (ℚ × ℚ)) (i : ℕ) : lutEntry pairs i ≤ 255 := by
  unfold lutEntry lutPre
  calc pyRound (clamp255 (outVal pairs (i : ℚ)))
      ≤ ⌈clamp255 (outVal pairs (i : ℚ))⌉ := pyRound_le_ceil _
    _ ≤ 255 := by
        rw [Int.ceil_le]
        exact_mod_cast clamp255_le _

theorem sortPairs_of_sorted {l : List (ℚ × ℚ)}
    (h : l.Pairwise (fun a b => a.1 ≤ b.1)) : sortPairs l = l := by
  unfold sortPairs
  exact List.mergeSort_of_sorted (h.imp (fun hab => decide_eq_true hab))

theorem load_lut_of_sorted {rows : List (ℚ × ℚ)}
    (h : rows.Pairwise (fun a b => a.1 ≤ b.1)) :
    load_lut rows =
      if rows.isEmpty then none else some (buildTable (rows.map clampOut)) := by
  unfold load_lut
  have hm : (rows.map clampOut).Pairwise (fun a b => a.1 ≤ b.1) :=
    List.pairwise_map.mpr (h.imp (fun hab => hab))
  rw [sortPairs_of_sorted hm]
  by_cases hr : rows = []
  · subst hr; rfl
  · rw [if_neg, if_neg] <;> simp [hr]

/-- C2 (counterexample): on the empty (zero-pixel) buffer, range
normalization does not return an empty buffer: min()/max() of an empty
sequence fail, so scale_to_full_range produces no output at all. -/
theorem scale_to_full_range_empty_cex : scale_to_full_range [] = none := rfl

/-- C2 (amended): range normalization fails exactly on the zero-size
buffer (Python's min of an empty sequence raises ValueError before any
scaling happens); on every non-empty buffer it succeeds. -/
theorem scale_to_full_range_none_iff (pixels : List ℤ) :
    scale_to_full_range pixels = none ↔ pixels = [] := by
  cases pixels with
  | nil => simp [scale_to_full_range]
  | cons a t =>
    simp only [scale_to_full_range, List.min?_cons', List.max?_cons']
    split_ifs <;> simp

/-- C5: for the sample set [(0,0),(128,200),(255,255)] the built table
has table[0] = 0, table[64] = 100, table[128] = 200 and table[255] = 255. -/
theorem lut_example_values :
    ((load_lut [(0,0),(128,200),(255,255)]).bind fun t => t[0]?) = some 0 ∧
    ((load_lut [(0,0),(128,200),(255,255)]).bind fun t => t[64]?) = some 100 ∧
    ((load_lut [(0,0),(128,200),(255,255)]).bind fun t => t[128]?) = some 200 ∧
    ((load_lut [(0,0),(128,200),(255,255)]).bind fun t => t[255]?) = some 255 := by
  rw [load_lut_of_sorted (by decide)]
  decide

/-- C1 (counterexample): for samples [(50,10),(50,90)] the table entry at
index 50 is 10, not 90: the branch i ≤ s_min is tested before i ≥ s_max,
so the minimum-input sample wins at the shared input value 50. -/
theorem lut_tie_at_50_cex :
    ((load_lut [(50,10),(50,90)]).bind fun t => t[50]?) = some 10 ∧
    ((load_lut [(50,10),(50,90)]).bind fun t => t[50]?) ≠ some 90 := by
  rw [load_lut_of_sorted (by decide)]
  decide

/-- C1 (amended): for the sample set [(50,10),(50,90)] the table entry is
10 for every index i ≤ 50 and 90 for every index i > 50, and the
equal-input interpolation branch is never taken: every query is answered
by the two endpoint branches alone. -/
theorem lut_tie_table :
    load_lut [(50,10),(50,90)] =
      some (List.replicate 51 10 ++ List.replicate 205 90) ∧
    ∀ i : ℚ, outVal ([((50:ℚ),(10:ℚ)),(50,90)].map clampOut) i =
      if i ≤ 50 then 10 else 90 := by
  constructor
  · rw [load_lut_of_sorted (by decide)]
    decide
  · intro i
    have hmap : [((50:ℚ),(10:ℚ)),(50,90)].map clampOut = [(50,10),(50,90)] := by
      decide
    rw [hmap]
    by_cases h : i ≤ 50
    · simp [outVal, h]
    · have h5 : (50:ℚ) ≤ i := le_of_not_le h
      simp [outVal, h, h5]

/-- C8: the negative-table derivation v ↦ 255 - v is involutive on every
256-entry table with entries in [0,255]. -/
theorem invert_lut_involutive (t : List ℤ) (_hlen : t.length = 256)
    (_hb : ∀ v ∈ t, 0 ≤ v ∧ v ≤ 255) : invert_lut (invert_lut t) = t := by
  unfold invert_lut
  rw [List.map_map]
  have h : ∀ a ∈ t, ((fun v => 255 - v) ∘ fun v : ℤ => 255 - v) a = id a :=
    fun a _ => by simp
  rw [List.map_congr_left h, List.map_id]

/-- C8 (witness): the involution property at the all-zero 256-entry table. -/
theorem invert_lut_involutive_witness :
    (List.replicate 256 (0:ℤ)).length = 256 ∧
    (∀ v ∈ List.replicate 256 (0:ℤ), 0 ≤ v ∧ v ≤ 255) ∧
    invert_lut (invert_lut (List.replicate 256 (0:ℤ))) = List.replicate 256 (0:ℤ) :=
  ⟨by decide, by decide, invert_lut_involutive _ (by decide) (by decide)⟩

/-- C9: load_lut fails (yields no table) on an empty sample set, and only
there: at least one sample pair is required. -/
theorem load_lut_empty_fails :
    load_lut [] = none ∧ ∀ rows : List (ℚ × ℚ), rows ≠ [] → load_lut rows ≠ none := by
  refine ⟨rfl, ?_⟩
  intro rows h
  unfold load_lut
  have he : (rows.map clampOut).isEmpty = false := by simp [h]
  rw [he]
  simp

/-- C9 (witness): a one-sample set is non-empty and yields a table. -/
theorem load_lut_empty_fails_witness :
    ([((0:ℚ),(0:ℚ))] ≠ ([] : List (ℚ × ℚ))) ∧ load_lut [((0:ℚ),(0:ℚ))] ≠ none :=
  ⟨by decide, load_lut_empty_fails.2 _ (by decide)⟩

/-- C3: for every non-empty list of sample pairs, load_lut returns a table
with exactly 256 entries, each an integer in [0,255]. -/
theorem load_lut_table_shape (rows : List (ℚ × ℚ)) (h : rows ≠ []) :
    ∃ t, load_lut rows = some t ∧ t.length = 256 ∧ ∀ v ∈ t, 0 ≤ v ∧ v ≤ 255 := by
  refine ⟨buildTable (sortPairs (rows.map clampOut)), ?_, ?_, ?_⟩
  · unfold load_lut
    have he : (rows.map clampOut).isEmpty = false := by simp [h]
    rw [he]
    rfl
  · unfold buildTable
    simp
  · intro v hv
    unfold buildTable at hv
    rcases List.mem_map.mp hv with ⟨i, _, rfl⟩
    exact ⟨lutEntry_nonneg _ _, lutEntry_le _ _⟩

/-- C3 (witness): the shape property at the one-sample set [(0,0)]. -/
theorem load_lut_table_shape_witness :
    ([((0:ℚ),(0:ℚ))] ≠ ([] : List (ℚ × ℚ))) ∧
    ∃ t, load_lut [((0:ℚ),(0:ℚ))] = some t ∧ t.length = 256 ∧
      ∀ v ∈ t, 0 ≤ v ∧ v ≤ 255 :=
  ⟨by decide, load_lut_table_shape _ (by decide)⟩

/-- C10: both the LUT construction and range normalization round with the
same rule, Python's round-half-to-even: whenever the pre-rounding value
(interpolated table value, resp. scaled pixel value) is exactly halfway
between two integers, the result is the even neighbour. -/
theorem rounding_half_to_even :
    (∀ (pairs : List (ℚ × ℚ)) (i : ℕ) (k : ℤ),
        lutPre pairs i = (k : ℚ) + 1/2 →
        lutEntry pairs i = if k % 2 = 0 then k else k + 1) ∧
    (∀ (mn mx p k : ℤ),
        scalePre mn mx p = (k : ℚ) + 1/2 →
        pyRound (scalePre mn mx p) = if k % 2 = 0 then k else k + 1) := by
  constructor
  · intro pairs i k hk
    unfold lutEntry
    rw [hk, pyRound_half]
  · intro mn mx p k hk
    rw [hk, pyRound_half]

/-- C10 (witness): samples [(0,0),(2,1)] give the interpolated value 1/2 at
index 1, rounded to 0 (the even neighbour); a pixel 1 in range [0,2] scales
to 127.5, rounded to 128 (the even neighbour). -/
theorem rounding_half_to_even_witness :
    (lutPre [((0:ℚ),(0:ℚ)),(2,1)] 1 = ((0:ℤ) : ℚ) + 1/2) ∧
    lutEntry [((0:ℚ),(0:ℚ)),(2,1)] 1 = (if (0:ℤ) % 2 = 0 then (0:ℤ) else 0 + 1) ∧
    (scalePre 0 2 1 = ((127:ℤ) : ℚ) + 1/2) ∧
    pyRound (scalePre 0 2 1) = (if (127:ℤ) % 2 = 0 then (127:ℤ) else 127 + 1) :=
  ⟨by decide, rounding_half_to_even.1 _ 1 0 (by decide), by decide,
   rounding_half_to_even.2 0 2 1 127 (by decide)⟩

theorem foldl_min_spec : ∀ (t : List ℤ) (a : ℤ),
    (t.foldl min a = a ∨ t.foldl min a ∈ t) ∧
    t.foldl min a ≤ a ∧ ∀ x ∈ t, t.foldl min a ≤ x
  | [], a => ⟨Or.inl rfl, le_rfl, by simp⟩
  | b :: t, a => by
    rcases foldl_min_spec t (min a b) with ⟨hmem, hle, hall⟩
    rw [List.foldl_cons]
    refine ⟨?_, ?_, ?_⟩
    · rcases hmem with h | h
      · rw [h]
        rcases min_choice a b with hc | hc
        · exact Or.inl hc
        · exact Or.inr (by rw [hc]; exact List.mem_cons_self _ _)
      · exact Or.inr (List.mem_cons_of_mem _ h)
    · exact hle.trans (min_le_left a b)
    · intro x hx
      rcases List.mem_cons.mp hx with rfl | hx
      · exact hle.trans (min_le_right a x)
      · exact hall x hx

theorem foldl_max_spec : ∀ (t : List ℤ) (a : ℤ),
    (t.foldl max a = a ∨ t.foldl max a ∈ t) ∧
    a ≤ t.foldl max a ∧ ∀ x ∈ t, x ≤ t.foldl max a
  | [], a => ⟨Or.inl rfl, le_rfl, by simp⟩
  | b :: t, a => by
    rcases foldl_max_spec t (max a b) with ⟨hmem, hle, hall⟩
    rw [List.foldl_cons]
    refine ⟨?_, ?_, ?_⟩
    · rcases hmem with h | h
      · rw [h]
        rcases max_choice a b with hc | hc
        · exact Or.inl hc
        · exact Or.inr (by rw [hc]; exact List.mem_cons_self _ _)
      · exact Or.inr (List.mem_cons_of_mem _ h)
    · exact (le_max_left a b).trans hle
    · intro x hx
      rcases List.mem_cons.mp hx with rfl | hx
      · exact (le_max_right a x).trans hle
      · exact hall x hx

theorem min?_spec {l : List ℤ} (h : l ≠ []) :
    ∃ m, l.min? = some m ∧ m ∈ l ∧ ∀ x ∈ l, m ≤ x := by
  cases l with
  | nil => exact absurd rfl h
  | cons a t =>
    rcases foldl_min_spec t a with ⟨hmem, hle, hall⟩
    refine ⟨t.foldl min a, List.min?_cons', ?_, ?_⟩
    · rcases hmem with h1 | h1
      · rw [h1]; exact List.mem_cons_self _ _
      · exact List.mem_cons_of_mem _ h1
    · intro x hx
      rcases List.mem_cons.mp hx with rfl | hx
      · exact hle
      · exact hall x hx

theorem max?_spec {l : List ℤ} (h : l ≠ []) :
    ∃ m, l.max? = some m ∧ m ∈ l ∧ ∀ x ∈ l, x ≤ m := by
  cases l with
  | nil => exact absurd rfl h
  | cons a t =>
    rcases foldl_max_spec t a with ⟨hmem, hle, hall⟩
    refine ⟨t.foldl max a, List.max?_cons', ?_, ?_⟩
    · rcases hmem with h1 | h1
      · rw [h1]; exact List.mem_cons_self _ _
      · exact List.mem_cons_of_mem _ h1
    · intro x hx
      rcases List.mem_cons.mp hx with rfl | hx
      · exact hle
      · exact hall x hx

/-- C6: a non-empty buffer whose pixels are all equal (so min = max)
normalizes to an all-zero buffer of the same size. -/
theorem scale_const_buffer (pixels : List ℤ) (hne : pixels ≠ [])
    (hconst : ∀ a ∈ pixels, ∀ b ∈ pixels, a = b) :
    scale_to_full_range pixels = some (List.replicate pixels.length 0) := by
  rcases min?_spec hne with ⟨m, hm, hmmem, -⟩
  rcases max?_spec hne with ⟨M, hM, hMmem, -⟩
  have hMm : M = m := hconst M hMmem m hmmem
  unfold scale_to_full_range
  rw [hm, hM]
  simp [hMm]

/-- C6 (witness): the constant buffer [7, 7] normalizes to [0, 0]. -/
theorem scale_const_buffer_witness :
    (([7, 7] : List ℤ) ≠ []) ∧
    (∀ a ∈ ([7, 7] : List ℤ), ∀ b ∈ ([7, 7] : List ℤ), a = b) ∧
    scale_to_full_range [7, 7] = some (List.replicate ([7, 7] : List ℤ).length 0) :=
  ⟨by decide, by decide, scale_const_buffer _ (by decide) (by decide)⟩

/-- C7: a buffer already spanning the full range (some pixel is 0, some is
255, all in [0,255]) is returned unchanged by range normalization, and
normalization is therefore idempotent on it. -/
theorem scale_full_range_id (pixels : List ℤ)
    (h0 : (0:ℤ) ∈ pixels) (h255 : (255:ℤ) ∈ pixels)
    (hbound : ∀ p ∈ pixels, 0 ≤ p ∧ p ≤ 255) :
    scale_to_full_range pixels = some pixels ∧
    (scale_to_full_range pixels).bind scale_to_full_range =
      scale_to_full_range pixels := by
  have hne : pixels ≠ [] := by
    intro h
    rw [h] at h0
    exact List.not_mem_nil _ h0
  rcases min?_spec hne with ⟨m, hm, hmmem, hmall⟩
  rcases max?_spec hne with ⟨M, hM, hMmem, hMall⟩
  have hm0 : m = 0 := le_antisymm (hmall 0 h0) (hbound m hmmem).1
  have hM255 : M = 255 := le_antisymm (hbound M hMmem).2 (hMall 255 h255)
  have hmain : scale_to_full_range pixels = some pixels := by
    unfold scale_to_full_range
    rw [hm, hM, hm0, hM255]
    show (if (255:ℤ) = 0 then some (List.replicate pixels.length 0)
        else some (pixels.map (fun p => pyRound (scalePre 0 255 p)))) = some pixels
    rw [if_neg (by norm_num)]
    congr 1
    have hpt : ∀ p ∈ pixels, pyRound (scalePre 0 255 p) = id p := by
      intro p _
      have hs : scalePre 0 255 p = (p : ℚ) := by
        unfold scalePre
        push_cast
        ring
      rw [hs, pyRound_intCast]
      rfl
    rw [List.map_congr_left hpt, List.map_id]
  refine ⟨hmain, ?_⟩
  rw [hmain]
  rw [Option.some_bind]
  exact hmain

/-- C7 (witness): the buffer [0, 255] is a fixed point of normalization. -/
theorem scale_full_range_id_witness :
    ((0:ℤ) ∈ ([0, 255] : List ℤ)) ∧ ((255:ℤ) ∈ ([0, 255] : List ℤ)) ∧
    (∀ p ∈ ([0, 255] : List ℤ), 0 ≤ p ∧ p ≤ 255) ∧
    (scale_to_full_range [0, 255] = some [0, 255] ∧
      (scale_to_full_range [0, 255]).bind scale_to_full_range =
        scale_to_full_range [0, 255]) :=
  ⟨by decide, by decide, by decide,
   scale_full_range_id _ (by decide) (by decide) (by decide)⟩

theorem scanPairs_ge_head (t : List (ℚ × ℚ)) :
    ∀ (a : ℚ × ℚ) {i dflt : ℚ},
    (a :: t).Pairwise (fun u v => u.1 ≤ v.1) →
    (a :: t).Pairwise (fun u v => u.2 ≤ v.2) →
    (t.getLastD a).2 ≤ dflt →
    a.1 < i →
    a.2 ≤ scanPairs i dflt (a :: t) := by
  induction t with
  | nil =>
    intro a i dflt _ _ hd _
    simpa [scanPairs, List.getLastD] using hd
  | cons b t2 ih =>
    intro a i dflt hsort hout hd hi
    rw [List.getLastD_cons] at hd
    have hab1 : a.1 ≤ b.1 := (List.pairwise_cons.mp hsort).1 b (List.mem_cons_self _ _)
    have hab2 : a.2 ≤ b.2 := (List.pairwise_cons.mp hout).1 b (List.mem_cons_self _ _)
    simp only [scanPairs]
    by_cases hbi : b.1 ≥ i
    · rw [if_pos hbi]
      by_cases heq : b.1 = a.1
      · rw [if_pos heq]
      · rw [if_neg heq]
        have hlt : a.1 < b.1 := lt_of_le_of_ne hab1 (fun h => heq h.symm)
        have hdiv : 0 ≤ (b.2 - a.2) * (i - a.1) / (b.1 - a.1) :=
          div_nonneg (mul_nonneg (by linarith) (by linarith)) (by linarith)
        linarith
    · rw [if_neg hbi]
      exact le_trans hab2 (ih b hsort.of_cons hout.of_cons hd (lt_of_not_ge hbi))

theorem scanPairs_le (l : List (ℚ × ℚ)) :
    ∀ {i dflt : ℚ},
    l.Pairwise (fun u v => u.1 ≤ v.1) →
    l.Pairwise (fun u v => u.2 ≤ v.2) →
    (∀ x ∈ l, x.2 ≤ dflt) →
    scanPairs i dflt l ≤ dflt := by
  induction l with
  | nil => intro i dflt _ _ _; simp [scanPairs]
  | cons a t ih =>
    intro i dflt hsort hout hall
    cases t with
    | nil => simp [scanPairs]
    | cons b t2 =>
      simp only [scanPairs]
      have hab1 : a.1 ≤ b.1 := (List.pairwise_cons.mp hsort).1 b (List.mem_cons_self _ _)
      have hab2 : a.2 ≤ b.2 := (List.pairwise_cons.mp hout).1 b (List.mem_cons_self _ _)
      by_cases hbi : b.1 ≥ i
      · rw [if_pos hbi]
        by_cases heq : b.1 = a.1
        · rw [if_pos heq]
          exact hall a (List.mem_cons_self _ _)
        · rw [if_neg heq]
          have hlt : a.1 < b.1 := lt_of_le_of_ne hab1 (fun h => heq h.symm)
          have hb2 : b.2 ≤ dflt := hall b (List.mem_cons_of_mem _ (List.mem_cons_self _ _))
          have hkey : (b.2 - a.2) * (i - a.1) / (b.1 - a.1) ≤ b.2 - a.2 := by
            rw [div_le_iff₀ (by linarith : (0:ℚ) < b.1 - a.1)]
            exact mul_le_mul_of_nonneg_left (by linarith) (by linarith)
          linarith
      · rw [if_neg hbi]
        exact ih hsort.of_cons hout.of_cons
          (fun x hx => hall x (List.mem_cons_of_mem _ hx))

theorem scanPairs_mono (t : List (ℚ × ℚ)) :
    ∀ (a : ℚ × ℚ) {i j dflt : ℚ},
    (a :: t).Pairwise (fun u v => u.1 ≤ v.1) →
    (a :: t).Pairwise (fun u v => u.2 ≤ v.2) →
    (t.getLastD a).2 ≤ dflt →
    a.1 < i → i ≤ j →
    scanPairs i dflt (a :: t) ≤ scanPairs j dflt (a :: t) := by
  induction t with
  | nil => intro a i j dflt _ _ _ _ _; simp [scanPairs]
  | cons b t2 ih =>
    intro a i j dflt hsort hout hd hi hij
    rw [List.getLastD_cons] at hd
    have hab1 : a.1 ≤ b.1 := (List.pairwise_cons.mp hsort).1 b (List.mem_cons_self _ _)
    have hab2 : a.2 ≤ b.2 := (List.pairwise_cons.mp hout).1 b (List.mem_cons_self _ _)
    simp only [scanPairs]
    by_cases hbj : b.1 ≥ j
    · have hbi : b.1 ≥ i := le_trans hij hbj
      rw [if_pos hbi, if_pos hbj]
      by_cases heq : b.1 = a.1
      · rw [if_pos heq, if_pos heq]
      · rw [if_neg heq, if_neg heq]
        have hlt : a.1 < b.1 := lt_of_le_of_ne hab1 (fun h => heq h.symm)
        have hmul : (b.2 - a.2) * (i - a.1) ≤ (b.2 - a.2) * (j - a.1) :=
          mul_le_mul_of_nonneg_left (by linarith) (by linarith)
        have hdiv :
            (b.2 - a.2) * (i - a.1) / (b.1 - a.1) ≤
              (b.2 - a.2) * (j - a.1) / (b.1 - a.1) :=
          (div_le_div_iff_of_pos_right (by linarith)).mpr hmul
        linarith
    · rw [if_neg hbj]
      by_cases hbi : b.1 ≥ i
      · rw [if_pos hbi]
        have hrec : b.2 ≤ scanPairs j dflt (b :: t2) :=
          scanPairs_ge_head t2 b hsort.of_cons hout.of_cons hd (lt_of_not_ge hbj)
        by_cases heq : b.1 = a.1
        · rw [if_pos heq]
          exact le_trans hab2 hrec
        · rw [if_neg heq]
          have hlt : a.1 < b.1 := lt_of_le_of_ne hab1 (fun h => heq h.symm)
          have hkey : (b.2 - a.2) * (i - a.1) / (b.1 - a.1) ≤ b.2 - a.2 := by
            rw [div_le_iff₀ (by linarith : (0:ℚ) < b.1 - a.1)]
            exact mul_le_mul_of_nonneg_left (by linarith) (by linarith)
          linarith
      · rw [if_neg hbi]
        exact ih b hsort.of_cons hout.of_cons hd (lt_of_not_ge hbi) hij

theorem pairwise_le_getLastD (t : List (ℚ × ℚ)) :
    ∀ (a : ℚ × ℚ),
    (a :: t).Pairwise (fun u v => u.2 ≤ v.2) →
    ∀ x ∈ a :: t, x.2 ≤ (t.getLastD a).2 := by
  induction t with
  | nil =>
    intro a _ x hx
    rcases List.mem_cons.mp hx with rfl | h
    · simp [List.getLastD]
    · exact absurd h (List.not_mem_nil x)
  | cons b t2 ih =>
    intro a hout x hx
    rw [List.getLastD_cons]
    rcases List.mem_cons.mp hx with rfl | hx2
    · exact (List.pairwise_cons.mp hout).1 _ (List.getLastD_mem_cons t2 b)
    · exact ih b hout.of_cons x hx2

theorem outVal_nil (x : ℚ) : outVal [] x = 0 := by
  unfold outVal
  split_ifs <;> simp [scanPairs]

theorem outVal_mono (pairs : List (ℚ × ℚ)) {x y : ℚ}
    (hsort : pairs.Pairwise (fun u v => u.1 ≤ v.1))
    (hout : pairs.Pairwise (fun u v => u.2 ≤ v.2))
    (hxy : x ≤ y) : outVal pairs x ≤ outVal pairs y := by
  cases pairs with
  | nil => rw [outVal_nil, outVal_nil]
  | cons a t =>
    have hall : ∀ u ∈ a :: t, u.2 ≤ (t.getLastD a).2 := pairwise_le_getLastD t a hout
    have hfl : a.2 ≤ (t.getLastD a).2 := hall a (List.mem_cons_self _ _)
    unfold outVal
    simp only [List.headD_cons, List.getLastD_cons]
    by_cases hx1 : x ≤ a.1
    · rw [if_pos hx1]
      by_cases hy1 : y ≤ a.1
      · rw [if_pos hy1]
      · rw [if_neg hy1]
        by_cases hy2 : y ≥ (t.getLastD a).1
        · rw [if_pos hy2]
          exact hfl
        · rw [if_neg hy2]
          by_cases hlen : (a :: t).length = 1
          · rw [if_pos hlen]
          · rw [if_neg hlen]
            exact scanPairs_ge_head t a hsort hout le_rfl (not_le.mp hy1)
    · rw [if_neg hx1]
      have hax : a.1 < x := not_le.mp hx1
      have hay : ¬(y ≤ a.1) := fun h => hx1 (hxy.trans h)
      rw [if_neg hay]
      by_cases hx2 : x ≥ (t.getLastD a).1
      · have hy2 : y ≥ (t.getLastD a).1 := le_trans hx2 hxy
        rw [if_pos hx2, if_pos hy2]
      · rw [if_neg hx2]
        by_cases hlen : (a :: t).length = 1
        · exfalso
          have ht : t = [] := by
            cases t with
            | nil => rfl
            | cons c t3 => simp at hlen
          subst ht
          exact hx2 (le_of_lt hax)
        · rw [if_neg hlen]
          by_cases hy2 : y ≥ (t.getLastD a).1
          · rw [if_pos hy2]
            exact scanPairs_le (a :: t) hsort hout hall
          · rw [if_neg hy2, if_neg hlen]
            exact scanPairs_mono t a hsort hout le_rfl hax hxy

theorem lutEntry_mono {pairs : List (ℚ × ℚ)} {i j : ℕ}
    (hsort : pairs.Pairwise (fun u v => u.1 ≤ v.1))
    (hout : pairs.Pairwise (fun u v => u.2 ≤ v.2))
    (hij : i ≤ j) : lutEntry pairs i ≤ lutEntry pairs j := by
  unfold lutEntry lutPre
  exact pyRound_mono (clamp255_mono (outVal_mono pairs hsort hout (by exact_mod_cast hij)))

theorem buildTable_getElem? {pairs : List (ℚ × ℚ)} {i : ℕ} {v : ℤ}
    (h : (buildTable pairs)[i]? = some v) : i < 256 ∧ v = lutEntry pairs i := by
  unfold buildTable at h
  rw [List.getElem?_map] at h
  rcases Option.map_eq_some'.mp h with ⟨a, ha, hv⟩
  rcases List.getElem?_eq_some_iff.mp ha with ⟨hlt, hval⟩
  rw [List.getElem_range] at hval
  subst hval
  refine ⟨by simpa using hlt, hv.symm⟩

/-- C4: for every non-empty sample list with non-decreasing inputs and
non-decreasing outputs, load_lut yields a non-decreasing 256-entry table:
whenever i ≤ j, table[i] ≤ table[j]. -/
theorem load_lut_monotone (rows : List (ℚ × ℚ)) (hne : rows ≠ [])
    (hin : rows.Pairwise (fun a b => a.1 ≤ b.1))
    (hout : rows.Pairwise (fun a b => a.2 ≤ b.2)) :
    ∃ t, load_lut rows = some t ∧
      ∀ (i j : ℕ) (vi vj : ℤ), i ≤ j →
        t[i]? = some vi → t[j]? = some vj → vi ≤ vj := by
  refine ⟨buildTable (rows.map clampOut), ?_, ?_⟩
  · rw [load_lut_of_sorted hin, if_neg (by simp [hne])]
  · intro i j vi vj hij hvi hvj
    rcases buildTable_getElem? hvi with ⟨_, rfl⟩
    rcases buildTable_getElem? hvj with ⟨_, rfl⟩
    have hsort2 : (rows.map clampOut).Pairwise (fun u v => u.1 ≤ v.1) :=
      List.pairwise_map.mpr (hin.imp (fun hab => hab))
    have hout2 : (rows.map clampOut).Pairwise (fun u v => u.2 ≤ v.2) :=
      List.pairwise_map.mpr (hout.imp (fun hab => clamp255_mono hab))
    exact lutEntry_mono hsort2 hout2 hij

/-- C4 (witness): the monotone table property at the sorted monotone
sample set [(0,0),(255,255)]. -/
theorem load_lut_monotone_witness :
    (([((0:ℚ),(0:ℚ)),(255,255)] : List (ℚ × ℚ)) ≠ []) ∧
    List.Pairwise (fun a b : ℚ × ℚ => a.1 ≤ b.1) [((0:ℚ),(0:ℚ)),(255,255)] ∧
    List.Pairwise (fun a b : ℚ × ℚ => a.2 ≤ b.2) [((0:ℚ),(0:ℚ)),(255,255)] ∧
    ∃ t, load_lut [((0:ℚ),(0:ℚ)),(255,255)] = some t ∧
      ∀ (i j : ℕ) (vi vj : ℤ), i ≤ j →
        t[i]? = some vi → t[j]? = some vj → vi ≤ vj :=
  ⟨by decide, by decide, by decide,
   load_lut_monotone _ (by decide) (by decide) (by decide)⟩
